import Mathlib

/-
Verification development for the KUTAgent tool-calling agent.

The definitions below are a shallow embedding of the Go sources:
  core/agent.go   (Agent.runInference, ToolCall.Run, getToolsDefinition,
                   runTools, isHTMLContentType and helpers)
  the message and provider types of the core package.

External effects (the clock, os.Stat, os.ReadFile, filepath.WalkDir,
subprocess execution via sh -c, and outbound HTTP) are modelled as an
explicit oracle record `World`; every place the Go code performs such an
effect the embedded function records an `Effect` in its trace, so that
"performs no I/O" claims are statements about the trace.

Go's path/filepath.Clean and Join (Unix rules) are embedded as executable
functions on character lists, following the documented lexical algorithm:
collapse repeated separators, drop "." elements, resolve ".." against the
preceding element, and drop ".." elements that begin a rooted path.
The platform is Unix: the path separator is the slash.
-/

deriving instance DecidableEq for Except

namespace KUT

/-- Loosely typed JSON-like argument values, as decoded by Go into a
map of string to any. Numbers are modelled as integers because no
behaviour in scope depends on fractional values (the only numeric
argument, timeout_sec, feeds a wall-clock deadline that is abstracted
into the effect oracles). -/
inductive JVal where
  | str (s : String)
  | num (n : Int)
  | boolean (b : Bool)
  | null
deriving DecidableEq, Repr

/-- The argument map of a tool call. -/
abbrev Args := List (String × JVal)

/-- Go's `args[k].(string)` with the zero-value convention: a missing key,
or a value that is not a string, yields the empty string. -/
def argStr (args : Args) (k : String) : String :=
  match List.lookup k args with
  | some (JVal.str s) => s
  | _ => ""

/-- Split a character list on the slash separator; the segment structure
underlying Go path/filepath.Clean on Unix paths. -/
def splitSlash : List Char → List (List Char)
  | [] => [[]]
  | c :: rest =>
    if c = '/' then [] :: splitSlash rest
    else
      match splitSlash rest with
      | [] => [[c]]
      | seg :: others => (c :: seg) :: others

/-- Rejoin segments with slashes (inverse of `splitSlash` on good input). -/
def joinSegs : List (List Char) → List Char
  | [] => []
  | [s] => s
  | s :: rest => s ++ '/' :: joinSegs rest

/-- The element-stack pass of path/filepath.Clean: push ordinary segments,
let ".." pop the preceding segment, drop ".." at the root of a rooted
path, and keep ".." of a relative path that has nothing left to pop.
The stack is kept reversed (most recent element first). -/
def cleanSegs (rooted : Bool) : List (List Char) → List (List Char) → List (List Char)
  | rstack, [] => rstack
  | rstack, seg :: rest =>
    if seg = ['.', '.'] then
      match rstack with
      | [] => if rooted then cleanSegs rooted [] rest else cleanSegs rooted [seg] rest
      | top :: below =>
        if top = ['.', '.'] then cleanSegs rooted (seg :: rstack) rest
        else cleanSegs rooted below rest
    else cleanSegs rooted (seg :: rstack) rest

/-- Go path/filepath.Clean for Unix paths, on character lists. -/
def cleanL (p : List Char) : List Char :=
  match p with
  | [] => ['.']
  | c :: _ =>
    let rooted := c = '/'
    let segs := (splitSlash p).filter (fun s => !(s == [] || s == ['.']))
    let stack := (cleanSegs rooted [] segs).reverse
    let body := joinSegs stack
    if rooted then '/' :: body
    else if body = [] then ['.'] else body

/-- Go path/filepath.Clean on strings. -/
def cleanPath (p : String) : String := String.mk (cleanL p.data)

/-- Go path/filepath.Join of two elements (Unix): empty elements are
dropped, the rest are joined with a slash and cleaned. -/
def joinPath (a b : String) : String :=
  if a = "" then if b = "" then "" else cleanPath b
  else if b = "" then cleanPath a
  else cleanPath (a ++ "/" ++ b)

/-- Go strings.HasPrefix as a byte-prefix test; on whole valid strings the
UTF-8 byte prefix relation coincides with the character prefix relation. -/
def strStartsWith (s p : String) : Bool := p.data.isPrefixOf s.data

/-- Go len() of a string: its UTF-8 byte length. -/
def byteLen (s : String) : Nat := (s.data.map Char.utf8Size).sum

/-- A path segment in canonical position after cleaning: nonempty, not a
dot, not a dot-dot, and containing no separator. -/
def GoodSeg (s : List Char) : Prop :=
  s ≠ [] ∧ s ≠ ['.'] ∧ s ≠ ['.', '.'] ∧ '/' ∉ s

/-- The root directory handed to the filesystem tools, as os.Getwd yields
it: an absolute path, already in clean form, and not the filesystem root
itself. -/
def IsCleanAbsRoot (root : String) : Prop :=
  root.data.head? = some '/' ∧ cleanPath root = root ∧ root ≠ "/"

/-- Result of os.Stat as far as the tools consult it: directory flag and
size in bytes. -/
structure StatInfo where
  isDir : Bool
  size : Nat
deriving DecidableEq, Repr

/-- One visit delivered by filepath.WalkDir, in visitation order: the full
path, the directory flag of the entry, and the error argument passed to
the callback (some when the walk reports a failure for this entry). -/
structure WalkEntry where
  path : String
  isDir : Bool
  err : Option String
deriving DecidableEq, Repr

/-- How exec.Cmd.Run ended: err == nil, an exec.ExitError carrying the
exit code (which is -1 when the process was killed by a signal), or any
other error. -/
inductive ShellRes where
  | success
  | exitErr (code : Int)
  | otherErr
deriving DecidableEq, Repr

/-- Combined stdout+stderr buffer contents and the Run outcome. -/
structure ShellOutcome where
  output : String
  res : ShellRes
deriving DecidableEq, Repr

/-- An HTTP response as far as fetch_url consults it. -/
structure HttpResp where
  status : Nat
  contentType : String
  body : String
deriving DecidableEq, Repr

/-- Oracle for every external effect the tools perform. `now` is the
formatted clock reading, `stat`/`readF`/`walk` the filesystem, `shell`
the subprocess layer, `http` the network, and `htmlText` the third-party
golang.org/x/net/html based text extraction used on HTML bodies. -/
structure World where
  now : String
  stat : String → Except String StatInfo
  readF : String → Except String String
  walk : String → List WalkEntry
  shell : String → ShellOutcome
  http : String → Except String HttpResp
  htmlText : String → String

/-- Trace of externally visible operations a tool run performed. -/
inductive Effect where
  | statOf (path : String)
  | readOf (path : String)
  | walkOf (path : String)
  | shellOf (cmd : String)
  | httpGet (url : String)
deriving DecidableEq, Repr

/-- The 1 MiB cap shared by read_file, list_files output, run_shell output
and fetch_url bodies. -/
def maxOutputBytes : Nat := 1048576

/-- The notice list_files and run_shell append on hitting the output cap. -/
def truncNotice : String := "\n... truncated due to output size limit ..."

/-- The read_file branch of ToolCall.Run: required-argument check, lexical
confinement of the resolved path to the root, stat, directory and size
checks, then the read. The effect trace records the stat and the read
exactly where the Go code performs them. -/
def readFileRun (root : String) (w : World) (args : Args) :
    Except String String × List Effect :=
  let p := argStr args "path"
  if p = "" then (Except.error "missing required argument: path", [])
  else
    let joined := joinPath root (cleanPath p)
    let rootWithSep := root ++ "/"
    if !(joined == root || strStartsWith joined rootWithSep) then
      (Except.error "access outside project root is not allowed", [])
    else
      match w.stat joined with
      | Except.error e => (Except.error ("stat file: " ++ e), [Effect.statOf joined])
      | Except.ok fi =>
        if fi.isDir then
          (Except.error "path is a directory, not a file", [Effect.statOf joined])
        else if maxOutputBytes < fi.size then
          (Except.error ("file too large: " ++ toString fi.size ++ " bytes (limit "
              ++ toString maxOutputBytes ++ ")"), [Effect.statOf joined])
        else
          match w.readF joined with
          | Except.error e =>
            (Except.error ("read file: " ++ e), [Effect.statOf joined, Effect.readOf joined])
          | Except.ok content =>
            (Except.ok content, [Effect.statOf joined, Effect.readOf joined])

/-- The WalkDir callback loop of the list_files branch, for walks over a
single flat directory (the directory entry itself followed by its files
in visitation order). A reported walk error aborts the walk; directory
entries are skipped; file paths are re-checked against the root
defensively; after the 5000th collected path the callback answers
SkipDir, which for files of a flat directory ends the walk. -/
def walkCollect (root rootWithSep : String) :
    List WalkEntry → List String → Except String (List String)
  | [], acc => Except.ok acc
  | e :: rest, acc =>
    match e.err with
    | some msg => Except.error msg
    | none =>
      if e.isDir then walkCollect root rootWithSep rest acc
      else if !(e.path == root || strStartsWith e.path rootWithSep) then
        walkCollect root rootWithSep rest acc
      else
        let acc' := acc ++ [e.path]
        if 5000 ≤ acc'.length then Except.ok acc'
        else walkCollect root rootWithSep rest acc'

/-- The output-building loop of list_files after the first path has been
written: each further path is preceded by a newline, the running byte
count updated, and when it exceeds the cap the notice is appended and
the loop breaks. -/
def renderAux : List String → Nat → String → String
  | [], _, b => b
  | fp :: rest, total, b =>
    let b' := b ++ "\n" ++ fp
    let total' := total + 1 + byteLen fp
    if maxOutputBytes < total' then b' ++ truncNotice
    else renderAux rest total' b'

/-- The full output-building loop of list_files over the collected paths. -/
def renderPaths : List String → String
  | [] => ""
  | fp :: rest =>
    let total := byteLen fp
    if maxOutputBytes < total then fp ++ truncNotice
    else renderAux rest total fp

/-- The list_files branch of ToolCall.Run. -/
def listFilesRun (root : String) (w : World) (args : Args) :
    Except String String × List Effect :=
  let p := argStr args "path"
  if p = "" then (Except.error "missing required argument: path", [])
  else
    let joined := joinPath root (cleanPath p)
    let rootWithSep := root ++ "/"
    if !(joined == root || strStartsWith joined rootWithSep) then
      (Except.error "access outside project root is not allowed", [])
    else
      match w.stat joined with
      | Except.error e => (Except.error ("stat path: " ++ e), [Effect.statOf joined])
      | Except.ok fi =>
        if !fi.isDir then
          (Except.error "path is not a directory", [Effect.statOf joined])
        else
          match walkCollect root rootWithSep (w.walk joined) [] with
          | Except.error e =>
            (Except.error ("walk dir: " ++ e), [Effect.statOf joined, Effect.walkOf joined])
          | Except.ok paths =>
            (Except.ok (renderPaths paths), [Effect.statOf joined, Effect.walkOf joined])

/-- Exit code reported by run_shell: 0 when Run returned nil, the
exec.ExitError code when it was an exit error, and -1 otherwise. -/
def exitCodeOf : ShellRes → Int
  | ShellRes.success => 0
  | ShellRes.exitErr n => n
  | ShellRes.otherErr => -1

/-- First n bytes of a string. Go slices at the exact byte offset; this
model stops at the last whole character before the offset, which agrees
with Go except inside a multi-byte character at the boundary, a
difference no claim in scope depends on. -/
def takeBytesL : List Char → Nat → List Char
  | [], _ => []
  | c :: rest, n =>
    if c.utf8Size ≤ n then c :: takeBytesL rest (n - c.utf8Size)
    else []

/-- String wrapper of `takeBytesL`. -/
def takeBytes (s : String) (n : Nat) : String := String.mk (takeBytesL s.data n)

/-- The output as run_shell reports it: the combined buffer, cut at the
1 MiB cap with the truncation notice when it overflows. -/
def shellCappedOutput (o : ShellOutcome) : String :=
  if maxOutputBytes < byteLen o.output then takeBytes o.output maxOutputBytes ++ truncNotice
  else o.output

/-- The run_shell branch of ToolCall.Run. The timeout_sec argument only
shapes the context deadline handed to the subprocess, which is part of
the shell oracle's outcome, so it does not appear separately here. -/
def runShellRun (w : World) (args : Args) : Except String String × List Effect :=
  let cmdStr := argStr args "command"
  if cmdStr = "" then (Except.error "missing required argument: command", [])
  else
    let o := w.shell cmdStr
    let exitCode := exitCodeOf o.res
    (Except.ok ("exit_code=" ++ toString exitCode ++ "\n" ++ shellCappedOutput o),
      [Effect.shellOf cmdStr])

/-- ASCII letter test of net/url's scheme scanner. -/
def isSchemeAlpha (c : Char) : Bool := ('a' ≤ c && c ≤ 'z') || ('A' ≤ c && c ≤ 'Z')

/-- ASCII digit test of net/url's scheme scanner. -/
def isSchemeDigit (c : Char) : Bool := '0' ≤ c && c ≤ '9'

/-- net/url getScheme: scan forward over scheme characters; a colon after
at least one leading letter ends a scheme (lowercased); a colon first is
a parse error; a digit, plus, minus or dot first, or any other
character, means the URL has no scheme. The accumulator holds the
scanned characters in reverse. -/
def getSchemeAux : List Char → List Char → Except String (List Char × List Char)
  | acc, [] => Except.ok ([], acc.reverse)
  | acc, c :: rest =>
    if isSchemeAlpha c then getSchemeAux (c :: acc) rest
    else if isSchemeDigit c || c = '+' || c = '-' || c = '.' then
      if acc = [] then Except.ok ([], c :: rest)
      else getSchemeAux (c :: acc) rest
    else if c = ':' then
      if acc = [] then Except.error "missing protocol scheme"
      else Except.ok (acc.reverse.map Char.toLower, rest)
    else Except.ok ([], acc.reverse ++ c :: rest)

/-- net/url getScheme on strings: the scheme and the remainder. -/
def getScheme (raw : String) : Except String (String × String) :=
  match getSchemeAux [] raw.data with
  | Except.error e => Except.error e
  | Except.ok (sch, rest) => Except.ok (String.mk sch, String.mk rest)

/-- Scheme and host of a parsed URL, all fetch_url consults. -/
structure URLParts where
  scheme : String
  host : String
deriving DecidableEq, Repr

/-- net/url Parse as far as fetch_url consults it: the scheme comes from
the embedded getScheme; the authority parsing (user info, host
validation, percent decoding) is abstracted as the `hostOf` oracle of
the World, because every claim in scope is decided before or
independently of it. -/
def parseURL (hostOf : String → Except String String) (raw : String) :
    Except String URLParts :=
  match getScheme raw with
  | Except.error e => Except.error e
  | Except.ok (sch, rest) =>
    match hostOf rest with
    | Except.error e => Except.error e
    | Except.ok h => Except.ok ⟨sch, h⟩

/-- Go strings.ToLower, restricted to the per-character ASCII lowering
that the content types and schemes in scope exercise. -/
def strToLower (s : String) : String := String.mk (s.data.map Char.toLower)

/-- Substring occurrence test on character lists: the needle occurs as a
contiguous run at some position. -/
def containsL : List Char → List Char → Bool
  | s, sub =>
    if sub.isPrefixOf s then true
    else
      match s with
      | [] => false
      | _ :: rest => containsL rest sub

/-- Go strings.Contains as a substring test. -/
def strContains (s sub : String) : Bool := containsL s.data sub.data

/-- isHTMLContentType from the source: lowercase, empty is not HTML, a
text/html leading part is, and otherwise any occurrence of html is. -/
def isHTMLContentType (ct : String) : Bool :=
  let lct := strToLower ct
  if lct = "" then false
  else if strStartsWith lct "text/html" then true
  else strContains lct "html"

/-- The notice fetch_url appends on hitting the body cap (the source
message says 32KB although the cap is 1 MiB). -/
def fetchTrunc : String := "\n... truncated due to 32KB limit ..."

/-- The fetch_url branch of ToolCall.Run: required-argument check, URL
parse, the invalid-url and scheme guards, then the GET (one oracle call
covering request construction, transport and body read), the 1 MiB body
cap, and the status/content-type prefix with optional HTML-to-text
conversion. -/
def fetchUrlRun (w : World) (hostOf : String → Except String String) (args : Args) :
    Except String String × List Effect :=
  let urlStr := argStr args "url"
  if urlStr = "" then (Except.error "missing required argument: url", [])
  else
    match parseURL hostOf urlStr with
    | Except.error _ => (Except.error "invalid url", [])
    | Except.ok u =>
      if u.scheme == "" || u.host == "" then (Except.error "invalid url", [])
      else if u.scheme != "http" && u.scheme != "https" then
        (Except.error ("unsupported url scheme: " ++ u.scheme), [])
      else
        match w.http urlStr with
        | Except.error e => (Except.error ("request failed: " ++ e), [Effect.httpGet urlStr])
        | Except.ok resp =>
          let truncated := maxOutputBytes < byteLen resp.body
          let data := if truncated then takeBytes resp.body maxOutputBytes else resp.body
          let ct := resp.contentType
          let pre := "status=" ++ toString resp.status ++ " content_type=\"" ++ ct ++ "\"\n"
          let body := if isHTMLContentType ct then w.htmlText data else data
          let body := if truncated then body ++ fetchTrunc else body
          (Except.ok (pre ++ body), [Effect.httpGet urlStr])

/-- ToolCall.Run: dispatch by exact tool name in source order; a name
with no case is an unknown tool. time_now reads the clock oracle. -/
def toolRun (root : String) (w : World) (hostOf : String → Except String String)
    (name : String) (args : Args) : Except String String × List Effect :=
  if name = "time_now" then (Except.ok w.now, [])
  else if name = "read_file" then readFileRun root w args
  else if name = "list_files" then listFilesRun root w args
  else if name = "run_shell" then runShellRun w args
  else if name = "fetch_url" then fetchUrlRun w hostOf args
  else (Except.error ("unknown tool: " ++ name), [])

/-- JSON-like schema values used in the tool catalog's parameter shapes
(the map of string to any literals of getToolsDefinition). -/
inductive Json where
  | str (s : String)
  | boolean (b : Bool)
  | arr (xs : List Json)
  | obj (fields : List (String × Json))

/-- A tool's function definition in the catalog. -/
structure FunctionDef where
  name : String
  description : String
  parameters : Json

/-- One catalog entry. -/
structure ToolDef where
  type : String
  function : FunctionDef

/-- getToolsDefinition: the fixed, ordered tool catalog sent with every
provider request. -/
def toolsDefinition : List ToolDef :=
  [ { type := "function"
      function :=
        { name := "time_now"
          description := "Return the current local time in RFC3339 format"
          parameters := Json.obj
            [ ("type", Json.str "object")
            , ("properties", Json.obj [])
            , ("additionalProperties", Json.boolean false) ] } }
  , { type := "function"
      function :=
        { name := "read_file"
          description := "Read a text file from the current project directory and return its contents. Input: { path: string }"
          parameters := Json.obj
            [ ("type", Json.str "object")
            , ("properties", Json.obj [ ("path", Json.obj [ ("type", Json.str "string") ]) ])
            , ("required", Json.arr [ Json.str "path" ])
            , ("additionalProperties", Json.boolean false) ] } }
  , { type := "function"
      function :=
        { name := "list_files"
          description := "List all files under the given directory path recursively, returning full paths. Input: { path: string }"
          parameters := Json.obj
            [ ("type", Json.str "object")
            , ("properties", Json.obj [ ("path", Json.obj [ ("type", Json.str "string") ]) ])
            , ("required", Json.arr [ Json.str "path" ])
            , ("additionalProperties", Json.boolean false) ] } }
  , { type := "function"
      function :=
        { name := "edit_file"
          description := "Create or overwrite a text file at the given path with provided content. Input: { path: string, content: string }"
          parameters := Json.obj
            [ ("type", Json.str "object")
            , ("properties", Json.obj
                [ ("path", Json.obj [ ("type", Json.str "string") ])
                , ("content", Json.obj [ ("type", Json.str "string") ]) ])
            , ("required", Json.arr [ Json.str "path", Json.str "content" ])
            , ("additionalProperties", Json.boolean false) ] } }
  , { type := "function"
      function :=
        { name := "run_shell"
          description := "Run an arbitrary shell command and return its output, stderr, and exit code. Input: { command: string, timeout_sec?: integer }"
          parameters := Json.obj
            [ ("type", Json.str "object")
            , ("properties", Json.obj
                [ ("command", Json.obj [ ("type", Json.str "string") ])
                , ("timeout_sec", Json.obj [ ("type", Json.str "integer") ]) ])
            , ("required", Json.arr [ Json.str "command" ])
            , ("additionalProperties", Json.boolean false) ] } }
  , { type := "function"
      function :=
        { name := "fetch_url"
          description := "Fetch the content of a webpage via HTTP GET. Input: { url: string, timeout_sec?: integer }"
          parameters := Json.obj
            [ ("type", Json.str "object")
            , ("properties", Json.obj
                [ ("url", Json.obj [ ("type", Json.str "string") ])
                , ("timeout_sec", Json.obj [ ("type", Json.str "integer") ]) ])
            , ("required", Json.arr [ Json.str "url" ])
            , ("additionalProperties", Json.boolean false) ] } }
  ]

/-- One conversation turn as stored in history and sent to the provider
(the UserMessage struct); absent omitempty fields are empty strings. -/
structure UserMessage where
  role : String
  content : String
  toolCallId : String
  name : String
deriving DecidableEq, Repr

/-- A tool call requested by the provider (the ToolCall struct, with the
nested function name and arguments flattened). -/
structure ToolCallM where
  id : String
  type : String
  name : String
  args : Args
deriving DecidableEq, Repr

/-- The assistant message inside a provider response. -/
structure AgentMessage where
  role : String
  content : String
  toolCalls : List ToolCallM
deriving DecidableEq, Repr

/-- The request body sent to the provider. -/
structure ProviderRequest where
  model : String
  messages : List UserMessage
  tools : List ToolDef
  stream : Bool

/-- The decoded provider response. -/
structure ProviderResponse where
  model : String
  createdAt : String
  message : AgentMessage
  done : Bool
  doneReason : String

/-- A provider is one synchronous request/response exchange; a hard
transport, status or decoding failure is an error. -/
abbrev Provider := ProviderRequest → Except String ProviderResponse

/-- The tool-result message runTools appends for one call: role tool, the
run's result text (a failure becomes a textual tool error), tagged with
the call's id and tool name. -/
def toolResultMsg (root : String) (w : World) (hostOf : String → Except String String)
    (tc : ToolCallM) : UserMessage :=
  let r := toolRun root w hostOf tc.name tc.args
  let result :=
    match r.1 with
    | Except.ok s => s
    | Except.error e => "tool error: " ++ e
  { role := "tool", content := result, toolCallId := tc.id, name := tc.name }

/-- runTools: when the reply carries tool calls, append one assistant
message capturing the call request, then one tool-result message per
call, sequentially in the provider's order. -/
def runToolsM (root : String) (w : World) (hostOf : String → Except String String)
    (chatResp : ProviderResponse) (messages : List UserMessage) : List UserMessage :=
  if chatResp.message.toolCalls.length > 0 then
    (messages ++ [{ role := chatResp.message.role, content := chatResp.message.content,
                    toolCallId := "", name := "" }])
      ++ chatResp.message.toolCalls.map (toolResultMsg root w hostOf)
  else messages

/-- The step loop of Agent.runInference with the remaining step budget as
fuel; the second component counts provider calls made. Each iteration
sends the history and catalog, then: tool calls present means run them
and loop; non-empty content is the final answer; done with no content is
an empty answer; otherwise the next iteration burns another step. -/
def runSteps (provider : Provider) (root : String) (w : World)
    (hostOf : String → Except String String) :
    Nat → List UserMessage → Except String UserMessage × Nat
  | 0, _ => (Except.error "max tool-calling steps exceeded", 0)
  | fuel + 1, messages =>
    match provider { model := "", messages := messages, tools := toolsDefinition,
                     stream := false } with
    | Except.error e => (Except.error e, 1)
    | Except.ok chatResp =>
      if chatResp.message.toolCalls.length > 0 then
        let r := runSteps provider root w hostOf fuel (runToolsM root w hostOf chatResp messages)
        (r.1, r.2 + 1)
      else if chatResp.message.content ≠ "" then
        (Except.ok { role := chatResp.message.role, content := chatResp.message.content,
                     toolCallId := "", name := "" }, 1)
      else if chatResp.done then
        (Except.ok { role := "assistant", content := "", toolCallId := "", name := "" }, 1)
      else
        let r := runSteps provider root w hostOf fuel messages
        (r.1, r.2 + 1)

/-- Agent.runInference: reject an empty conversation, then run at most
five steps. The result pairs the outcome with the number of provider
calls made. -/
def runInference (provider : Provider) (root : String) (w : World)
    (hostOf : String → Except String String) (conversations : List UserMessage) :
    Except String UserMessage × Nat :=
  if conversations.length = 0 then (Except.error "conversations must not be empty", 0)
  else runSteps provider root w hostOf 5 conversations

/-- A closed world fixture for witnesses: a small filesystem under the
root /r with one oversized and one small file and a flat directory, a
fixed clock, a shell oracle and a closed network. -/
def worldEx : World :=
  { now := "2025-08-31T12:44:54+02:00"
    stat := fun p =>
      if p = "/r/big.txt" then Except.ok { isDir := false, size := 2000000 }
      else if p = "/r/small.txt" then Except.ok { isDir := false, size := 5 }
      else if p = "/r/d" then Except.ok { isDir := true, size := 0 }
      else Except.error "no such file or directory"
    readF := fun p => if p = "/r/small.txt" then Except.ok "hello" else Except.error "io"
    walk := fun p =>
      if p = "/r/d" then
        [ { path := "/r/d", isDir := true, err := none }
        , { path := "/r/d/a.txt", isDir := false, err := none }
        , { path := "/r/d/b.txt", isDir := false, err := none } ]
      else []
    shell := fun c =>
      if c = "echo hi" then { output := "hi\n", res := ShellRes.success }
      else { output := "sh: not found\n", res := ShellRes.exitErr 127 }
    http := fun _ => Except.error "connection refused"
    htmlText := id }

/-- A closed authority-parsing oracle for witnesses: a host is present
exactly when the remainder begins with two slashes. -/
def hostOfEx : String → Except String String :=
  fun rest => if strStartsWith rest "//" then Except.ok "x" else Except.ok ""

/-- A tool-call-only provider reply fixture: no final text, not done, one
time_now call. -/
def respToolsOnly : ProviderResponse :=
  { model := "m"
    createdAt := "now"
    message :=
      { role := "assistant"
        content := ""
        toolCalls := [ { id := "call0", type := "function", name := "time_now", args := [] } ] }
    done := false
    doneReason := "" }

/-- A provider fixture that answers every request with the same
tool-call-only reply. -/
def providerToolsOnly : Provider := fun _ => Except.ok respToolsOnly

/-- A one-message conversation fixture. -/
def convEx : List UserMessage :=
  [ { role := "user", content := "what time is it?", toolCallId := "", name := "" } ]

/-- Newline-joined continuation of a path list (everything after the first
path), the shape the list_files output loop produces while the byte cap
is not hit. -/
def joinTail : List String → String
  | [] => ""
  | fp :: rest => "\n" ++ fp ++ joinTail rest

/-- Newline-joined path list: what renderPaths produces when the byte cap
is never hit. -/
def joinAll : List String → String
  | [] => ""
  | fp :: rest => fp ++ joinTail rest

/-- Bytes the render loop accounts for a path list when every element is
preceded by a newline. -/
def renderWeight (paths : List String) : Nat :=
  (paths.map (fun fp => 1 + byteLen fp)).sum

/-- The ASCII digit character of d modulo ten. -/
def digitChar (d : Nat) : Char := Char.ofNat (48 + d % 10)

/-- Four-digit decimal rendering of i (modulo 10000), used to give the
6000 counterexample files distinct short names. -/
def pad4 (i : Nat) : String :=
  String.mk [digitChar (i / 1000), digitChar (i / 100), digitChar (i / 10), digitChar i]

/-- Path of the i-th counterexample file under the walked directory. -/
def cexPath (i : Nat) : String := "/r/d/" ++ pad4 i

/-- The 6000 walk entries of the counterexample directory, all plain files
directly inside /r/d, in visitation order. -/
def cexEntries : List WalkEntry :=
  (List.range 6000).map (fun i => { path := cexPath i, isDir := false, err := none })

/-- World fixture for the counterexample: /r/d is a directory whose walk
visits the directory itself and then its 6000 files. -/
def worldCex : World :=
  { now := "2025-08-31T12:44:54+02:00"
    stat := fun p =>
      if p = "/r/d" then Except.ok { isDir := true, size := 0 }
      else Except.error "no such file or directory"
    readF := fun _ => Except.error "io"
    walk := fun p =>
      if p = "/r/d" then { path := "/r/d", isDir := true, err := none } :: cexEntries
      else []
    shell := fun _ => { output := "", res := ShellRes.otherErr }
    http := fun _ => Except.error "connection refused"
    htmlText := id }

/-- C9: a single inference run on the empty conversation fails immediately
with the descriptive hard error, making zero provider calls and hence
executing no tools. -/
theorem empty_conversation_rejected (provider : Provider) (root : String) (w : World)
    (hostOf : String → Except String String) :
    runInference provider root w hostOf [] =
      (Except.error "conversations must not be empty", 0) := rfl

/-- C1, against the code as written: the catalog advertises edit_file and
its schema requires both path and content, but ToolCall.Run has no
edit_file case, so every edit_file call — including one carrying both a
path and a content argument — ends in the unknown-tool failure and
performs no filesystem write. -/
theorem edit_file_unimplemented :
    (∃ td ∈ toolsDefinition, td.function.name = "edit_file" ∧
      ∃ fields, td.function.parameters = Json.obj fields ∧
        List.lookup "required" fields
          = some (Json.arr [Json.str "path", Json.str "content"])) ∧
    ∀ (root : String) (w : World) (hostOf : String → Except String String) (args : Args),
      toolRun root w hostOf "edit_file" args
        = (Except.error "unknown tool: edit_file", []) := by
  constructor
  · have h3 : 3 < toolsDefinition.length := by simp [toolsDefinition]
    exact ⟨toolsDefinition.get ⟨3, h3⟩, List.get_mem toolsDefinition 3 h3, rfl, _, rfl, rfl⟩
  · intro root w hostOf args
    rfl

/-- C2 amended: a path argument whose resolved root-join fails the
confinement check makes read_file and list_files fail with the
confinement-violation error and perform no filesystem I/O; edit_file,
being absent from the dispatch, fails with the unknown-tool error for
every argument map, likewise performing no I/O. -/
theorem confinement_guard (root : String) (w : World)
    (hostOf : String → Except String String) (args : Args)
    (hp : argStr args "path" ≠ "")
    (hguard : (joinPath root (cleanPath (argStr args "path")) == root
        || strStartsWith (joinPath root (cleanPath (argStr args "path"))) (root ++ "/"))
        = false) :
    toolRun root w hostOf "read_file" args
        = (Except.error "access outside project root is not allowed", []) ∧
    toolRun root w hostOf "list_files" args
        = (Except.error "access outside project root is not allowed", []) ∧
    toolRun root w hostOf "edit_file" args
        = (Except.error "unknown tool: edit_file", []) := by
  refine ⟨?_, ?_, rfl⟩
  · show readFileRun root w args = _
    simp [readFileRun, hp, hguard]
  · show listFilesRun root w args = _
    simp [listFilesRun, hp, hguard]

/-- C2 counterexample: at root /r, the argument path ../x resolves to /x,
outside the root, so the claim demands a confinement-violation failure
from edit_file; the code instead answers with the unknown-tool error. -/
theorem confinement_edit_file_cex :
    (joinPath "/r" (cleanPath "../x") == "/r"
      || strStartsWith (joinPath "/r" (cleanPath "../x")) ("/r" ++ "/")) = false ∧
    (toolRun "/r" worldEx hostOfEx "edit_file"
        [("path", JVal.str "../x"), ("content", JVal.str "y")]).1
      ≠ Except.error "access outside project root is not allowed" ∧
    (toolRun "/r" worldEx hostOfEx "edit_file"
        [("path", JVal.str "../x"), ("content", JVal.str "y")]).1
      = Except.error "unknown tool: edit_file" := by
  refine ⟨by decide, by decide, by decide⟩

/-- C2 witness: the amended statement applied at root /r and path ../x. -/
theorem confinement_guard_witness :
    toolRun "/r" worldEx hostOfEx "read_file" [("path", JVal.str "../x")]
        = (Except.error "access outside project root is not allowed", []) ∧
    toolRun "/r" worldEx hostOfEx "list_files" [("path", JVal.str "../x")]
        = (Except.error "access outside project root is not allowed", []) ∧
    toolRun "/r" worldEx hostOfEx "edit_file" [("path", JVal.str "../x")]
        = (Except.error "unknown tool: edit_file", []) :=
  confinement_guard "/r" worldEx hostOfEx [("path", JVal.str "../x")]
    (by decide) (by decide)

/-- C5: run_shell with a non-empty command answers with a non-error result
of the form exit_code=n, a newline and the (capped) captured output; the
code is -1 exactly when the failure was not a normal exit; and a hard
error occurs if and only if the command argument is missing or empty
(the Go string view of the argument is empty). -/
theorem run_shell_contract (w : World) (args : Args) :
    (argStr args "command" ≠ "" →
      (runShellRun w args).1 =
        Except.ok ("exit_code=" ++ toString (exitCodeOf (w.shell (argStr args "command")).res)
          ++ "\n" ++ shellCappedOutput (w.shell (argStr args "command")))) ∧
    ((∃ e, (runShellRun w args).1 = Except.error e) ↔ argStr args "command" = "") ∧
    exitCodeOf ShellRes.otherErr = -1 := by
  by_cases h : argStr args "command" = ""
  · refine ⟨fun hc => absurd h hc, ⟨fun _ => h, fun _ => ?_⟩, rfl⟩
    exact ⟨"missing required argument: command", by simp [runShellRun, h]⟩
  · refine ⟨fun _ => by simp [runShellRun, h], ⟨?_, fun hc => absurd hc h⟩, rfl⟩
    rintro ⟨e, he⟩
    simp [runShellRun, h] at he

/-- C5 witness: a concrete successful command. -/
theorem run_shell_contract_witness :
    (runShellRun worldEx [("command", JVal.str "echo hi")]).1
      = Except.ok "exit_code=0\nhi\n" := by
  have h := (run_shell_contract worldEx [("command", JVal.str "echo hi")]).1 (by decide)
  exact h.trans (by decide)

/-- C7: once read_file reaches the stat of a plain file, a size above the
1 MiB cap yields the size-limit error with no read performed, and a size
at or below the cap passes the check, the trace proceeding to the read. -/
theorem read_file_size_cap (root : String) (w : World) (args : Args) (fi : StatInfo)
    (hp : argStr args "path" ≠ "")
    (hguard : (joinPath root (cleanPath (argStr args "path")) == root
        || strStartsWith (joinPath root (cleanPath (argStr args "path"))) (root ++ "/"))
        = true)
    (hstat : w.stat (joinPath root (cleanPath (argStr args "path"))) = Except.ok fi)
    (hdir : fi.isDir = false) :
    (maxOutputBytes < fi.size →
      (readFileRun root w args).1 = Except.error ("file too large: " ++ toString fi.size
          ++ " bytes (limit " ++ toString maxOutputBytes ++ ")") ∧
      (readFileRun root w args).2
        = [Effect.statOf (joinPath root (cleanPath (argStr args "path")))]) ∧
    (fi.size ≤ maxOutputBytes →
      (readFileRun root w args).2
        = [Effect.statOf (joinPath root (cleanPath (argStr args "path"))),
           Effect.readOf (joinPath root (cleanPath (argStr args "path")))]) := by
  constructor
  · intro hlt
    constructor <;> simp [readFileRun, hp, hguard, hstat, hdir, hlt]
  · intro hle
    have hnlt : ¬ maxOutputBytes < fi.size := Nat.not_lt.mpr hle
    cases hr : w.readF (joinPath root (cleanPath (argStr args "path"))) <;>
      simp [readFileRun, hp, hguard, hstat, hdir, hnlt, hr]

/-- C7 witness: the oversized fixture file /r/big.txt is rejected with no
read, and the small fixture file passes the size check. -/
theorem read_file_size_cap_witness :
    ((readFileRun "/r" worldEx [("path", JVal.str "big.txt")]).1
        = Except.error "file too large: 2000000 bytes (limit 1048576)" ∧
      (readFileRun "/r" worldEx [("path", JVal.str "big.txt")]).2
        = [Effect.statOf "/r/big.txt"]) ∧
    (readFileRun "/r" worldEx [("path", JVal.str "small.txt")]).2
      = [Effect.statOf "/r/small.txt", Effect.readOf "/r/small.txt"] := by
  constructor
  · have h := (read_file_size_cap "/r" worldEx [("path", JVal.str "big.txt")]
      { isDir := false, size := 2000000 }
      (by decide) (by decide) (by decide) (by decide)).1 (by decide)
    exact ⟨h.1.trans (by decide), h.2.trans (by decide)⟩
  · have h := (read_file_size_cap "/r" worldEx [("path", JVal.str "small.txt")]
      { isDir := false, size := 5 }
      (by decide) (by decide) (by decide) (by decide)).2 (by decide)
    exact h.trans (by decide)

/-- C6: whenever the scheme scanner of the URL parse errors or yields a
scheme other than http or https (ftp, javascript, the empty scheme of a
scheme-less string), fetch_url fails and its trace carries no HTTP
request, for every authority-parsing oracle. -/
theorem fetch_url_scheme_guard (w : World) (hostOf : String → Except String String)
    (args : Args)
    (h : (∃ e, getScheme (argStr args "url") = Except.error e) ∨
         ∃ sch rest, getScheme (argStr args "url") = Except.ok (sch, rest) ∧
           sch ≠ "http" ∧ sch ≠ "https") :
    (∃ e, (fetchUrlRun w hostOf args).1 = Except.error e) ∧
    (fetchUrlRun w hostOf args).2 = [] := by
  by_cases hu : argStr args "url" = ""
  · exact ⟨⟨"missing required argument: url", by simp [fetchUrlRun, hu]⟩,
      by simp [fetchUrlRun, hu]⟩
  · rcases h with ⟨e, he⟩ | ⟨sch, rest, hok, h1, h2⟩
    · exact ⟨⟨"invalid url", by simp [fetchUrlRun, parseURL, hu, he]⟩,
        by simp [fetchUrlRun, parseURL, hu, he]⟩
    · cases hh : hostOf rest with
      | error e =>
        exact ⟨⟨"invalid url", by simp [fetchUrlRun, parseURL, hu, hok, hh]⟩,
          by simp [fetchUrlRun, parseURL, hu, hok, hh]⟩
      | ok hst =>
        by_cases hcond : (sch == "" || hst == "") = true
        · exact ⟨⟨"invalid url", by simp [fetchUrlRun, parseURL, hu, hok, hh, hcond]⟩,
            by simp [fetchUrlRun, parseURL, hu, hok, hh, hcond]⟩
        · have hne : (sch != "http" && sch != "https") = true := by
            simp [bne, h1, h2]
          exact ⟨⟨"unsupported url scheme: " ++ sch,
              by simp [fetchUrlRun, parseURL, hu, hok, hh, hcond, hne]⟩,
            by simp [fetchUrlRun, parseURL, hu, hok, hh, hcond, hne]⟩

/-- C6 witness: ftp://x is rejected with an empty trace. -/
theorem fetch_url_scheme_guard_witness :
    (∃ e, (fetchUrlRun worldEx hostOfEx [("url", JVal.str "ftp://x")]).1
      = Except.error e) ∧
    (fetchUrlRun worldEx hostOfEx [("url", JVal.str "ftp://x")]).2 = [] :=
  fetch_url_scheme_guard worldEx hostOfEx [("url", JVal.str "ftp://x")]
    (Or.inr ⟨"ftp", "//x", by decide, by decide, by decide⟩)

/-- C8: processing a reply with at least one tool call appends to the
unchanged history exactly one assistant message capturing the request,
then one tool-result message per call in the provider's order; every
tool-result message carries role tool and the originating call's id and
tool name. -/
theorem run_tools_appends_in_order (root : String) (w : World)
    (hostOf : String → Except String String) (chatResp : ProviderResponse)
    (m : List UserMessage) (hn : 0 < chatResp.message.toolCalls.length) :
    runToolsM root w hostOf chatResp m =
      m ++ ({ role := chatResp.message.role, content := chatResp.message.content,
              toolCallId := "", name := "" }
        :: chatResp.message.toolCalls.map (toolResultMsg root w hostOf)) ∧
    (runToolsM root w hostOf chatResp m).take m.length = m ∧
    (runToolsM root w hostOf chatResp m).length
      = m.length + 1 + chatResp.message.toolCalls.length ∧
    ∀ tc : ToolCallM, (toolResultMsg root w hostOf tc).role = "tool" ∧
      (toolResultMsg root w hostOf tc).toolCallId = tc.id ∧
      (toolResultMsg root w hostOf tc).name = tc.name := by
  have hmain : runToolsM root w hostOf chatResp m =
      m ++ ({ role := chatResp.message.role, content := chatResp.message.content,
              toolCallId := "", name := "" }
        :: chatResp.message.toolCalls.map (toolResultMsg root w hostOf)) := by
    simp [runToolsM, hn]
  refine ⟨hmain, ?_, ?_, fun tc => ⟨rfl, rfl, rfl⟩⟩
  · rw [hmain]
    exact List.take_left m _
  · rw [hmain]
    simp
    omega

/-- C8 witness: the fixture reply with one tool call appended to the
fixture conversation. -/
theorem run_tools_appends_in_order_witness :
    runToolsM "/r" worldEx hostOfEx respToolsOnly convEx =
      convEx ++ [ { role := "assistant", content := "", toolCallId := "", name := "" },
        { role := "tool", content := "2025-08-31T12:44:54+02:00",
          toolCallId := "call0", name := "time_now" } ] := by
  have h := (run_tools_appends_in_order "/r" worldEx hostOfEx
    respToolsOnly convEx (by decide)).1
  exact h.trans (by decide)

/-- Under a provider whose every reply carries tool calls only, each step
consumes one provider call and the loop ends by exhausting its fuel with
the step-exceeded error, the call count equalling the fuel. -/
theorem runSteps_tools_only (provider : Provider) (root : String) (w : World)
    (hostOf : String → Except String String)
    (hp : ∀ req, ∃ resp, provider req = Except.ok resp ∧
      0 < resp.message.toolCalls.length ∧ resp.message.content = "" ∧ resp.done = false) :
    ∀ (fuel : Nat) (messages : List UserMessage),
      runSteps provider root w hostOf fuel messages =
        (Except.error "max tool-calling steps exceeded", fuel) := by
  intro fuel
  induction fuel with
  | zero => intro messages; rfl
  | succ n ih =>
    intro messages
    obtain ⟨resp, hok, htc, _, _⟩ :=
      hp { model := "", messages := messages, tools := toolsDefinition, stream := false }
    unfold runSteps
    rw [hok]
    simp only [htc, if_pos]
    rw [ih]

/-- C4: a provider that answers every request with a tool-call-only reply
(no final text, done false) makes the run fail with the step-exceeded
error after exactly five provider calls. -/
theorem step_bound_after_five_calls (provider : Provider) (root : String) (w : World)
    (hostOf : String → Except String String) (conversations : List UserMessage)
    (hne : conversations ≠ [])
    (hp : ∀ req, ∃ resp, provider req = Except.ok resp ∧
      0 < resp.message.toolCalls.length ∧ resp.message.content = "" ∧ resp.done = false) :
    runInference provider root w hostOf conversations =
      (Except.error "max tool-calling steps exceeded", 5) := by
  unfold runInference
  rw [if_neg (by simpa [List.length_eq_zero] using hne)]
  exact runSteps_tools_only provider root w hostOf hp 5 conversations

/-- C4 witness: the tool-call-only provider fixture on the one-message
conversation fails after exactly five calls. -/
theorem step_bound_after_five_calls_witness :
    runInference providerToolsOnly "/r" worldEx hostOfEx convEx =
      (Except.error "max tool-calling steps exceeded", 5) :=
  step_bound_after_five_calls providerToolsOnly "/r" worldEx hostOfEx convEx
    (by decide)
    (fun _ => ⟨_, rfl, by decide, rfl, rfl⟩)

/-- Over error-free plain-file entries all passing the defensive root
check, the walk callback collects paths in order until the 5000-entry
cap stops it. -/
theorem walkCollect_files (root rootWithSep : String) :
    ∀ (entries : List WalkEntry) (acc : List String),
      (∀ e ∈ entries, e.err = none ∧ e.isDir = false ∧
        (e.path == root || strStartsWith e.path rootWithSep) = true) →
      acc.length < 5000 →
      walkCollect root rootWithSep entries acc =
        Except.ok (acc ++ (entries.map WalkEntry.path).take (5000 - acc.length)) := by
  intro entries
  induction entries with
  | nil => intro acc _ _; simp [walkCollect]
  | cons e rest ih =>
    intro acc hgood hlen
    obtain ⟨herr, hdir, hok⟩ := hgood e (List.mem_cons_self e rest)
    unfold walkCollect
    rw [herr]
    simp only [hdir, Bool.false_eq_true, if_false, hok, Bool.not_true,
      Bool.false_eq_true, if_false]
    by_cases hfull : 5000 ≤ (acc ++ [e.path]).length
    · rw [if_pos hfull]
      have h1 : 5000 - acc.length = 1 := by
        simp [List.length_append] at hfull ⊢
        omega
      rw [h1]
      simp
    · rw [if_neg hfull]
      have hlt : (acc ++ [e.path]).length < 5000 := Nat.lt_of_not_le hfull
      rw [ih (acc ++ [e.path]) (fun x hx => hgood x (List.mem_cons_of_mem e hx)) hlt]
      have h2 : 5000 - acc.length = (5000 - (acc ++ [e.path]).length) + 1 := by
        simp [List.length_append] at hlt ⊢
        omega
      rw [h2]
      simp [List.take_succ_cons, List.append_assoc]

/-- While the running byte count stays within the cap, the output loop of
list_files appends newline-joined paths and never the notice. -/
theorem renderAux_no_trunc :
    ∀ (rest : List String) (total : Nat) (b : String),
      total + (rest.map (fun fp => 1 + byteLen fp)).sum ≤ maxOutputBytes →
      renderAux rest total b = b ++ joinTail rest := by
  intro rest
  induction rest with
  | nil =>
    intro total b _
    simp [renderAux, joinTail]
  | cons fp rest ih =>
    intro total b h
    simp only [List.map_cons, List.sum_cons] at h
    unfold renderAux
    rw [if_neg (Nat.not_lt.mpr (by omega))]
    rw [ih (total + 1 + byteLen fp) (b ++ "\n" ++ fp) (by omega)]
    simp [joinTail, String.append_assoc]

/-- When the total rendered size stays within the cap, the list_files
output is exactly the newline join of the collected paths — no
truncation notice appears. -/
theorem renderPaths_no_trunc (paths : List String)
    (h : renderWeight paths ≤ maxOutputBytes) :
    renderPaths paths = joinAll paths := by
  cases paths with
  | nil => rfl
  | cons fp rest =>
    simp only [renderWeight, List.map_cons, List.sum_cons] at h
    rw [show renderPaths (fp :: rest)
        = if maxOutputBytes < byteLen fp then fp ++ truncNotice
          else renderAux rest (byteLen fp) fp from rfl]
    rw [if_neg (Nat.not_lt.mpr (by omega))]
    rw [renderAux_no_trunc rest (byteLen fp) fp (by omega)]
    rfl

/-- Byte length distributes over string append. -/
theorem byteLen_append (a b : String) : byteLen (a ++ b) = byteLen a + byteLen b := by
  simp [byteLen, String.data_append]

/-- Decimal digit characters are one UTF-8 byte. -/
theorem utf8Size_digitChar (d : Nat) : (digitChar d).utf8Size = 1 := by
  have h : d % 10 < 10 := Nat.mod_lt _ (by omega)
  unfold digitChar
  set k := d % 10 with hk
  interval_cases k <;> decide

/-- Decimal digit characters are not the space character. -/
theorem digitChar_ne_space (d : Nat) : digitChar d ≠ ' ' := by
  have h : d % 10 < 10 := Nat.mod_lt _ (by omega)
  unfold digitChar
  set k := d % 10 with hk
  interval_cases k <;> decide

/-- The four-digit name is four bytes. -/
theorem byteLen_pad4 (i : Nat) : byteLen (pad4 i) = 4 := by
  simp [byteLen, pad4, utf8Size_digitChar]

/-- Every counterexample path is nine bytes. -/
theorem byteLen_cexPath (i : Nat) : byteLen (cexPath i) = 9 := by
  unfold cexPath
  rw [byteLen_append, byteLen_pad4]
  decide

/-- Sum of a constant-valued map. -/
theorem sum_map_const_of {α : Type} (l : List α) (f : α → Nat) (k : Nat)
    (h : ∀ x ∈ l, f x = k) : (l.map f).sum = k * l.length := by
  induction l with
  | nil => simp
  | cons a t ih =>
    simp only [List.map_cons, List.sum_cons, List.length_cons,
      h a (List.mem_cons_self a t), ih (fun x hx => h x (List.mem_cons_of_mem a hx))]
    ring

/-- Characters of the newline-joined continuation come from the newline or
from one of the paths. -/
theorem mem_data_joinTail (paths : List String) (c : Char) :
    c ∈ (joinTail paths).data → c = '\n' ∨ ∃ fp ∈ paths, c ∈ fp.data := by
  induction paths with
  | nil => intro h; simp [joinTail] at h
  | cons fp rest ih =>
    intro h
    simp only [joinTail, String.data_append, List.mem_append] at h
    rcases h with (h | h) | h
    · left
      simpa using h
    · right
      exact ⟨fp, List.mem_cons_self fp rest, h⟩
    · rcases ih h with h1 | ⟨g, hg, hc⟩
      · exact Or.inl h1
      · exact Or.inr ⟨g, List.mem_cons_of_mem fp hg, hc⟩

/-- Characters of the newline join come from the newline or the paths. -/
theorem mem_data_joinAll (paths : List String) (c : Char) :
    c ∈ (joinAll paths).data → c = '\n' ∨ ∃ fp ∈ paths, c ∈ fp.data := by
  cases paths with
  | nil => intro h; simp [joinAll] at h
  | cons fp rest =>
    intro h
    simp only [joinAll, String.data_append, List.mem_append] at h
    rcases h with h | h
    · exact Or.inr ⟨fp, List.mem_cons_self fp rest, h⟩
    · rcases mem_data_joinTail rest c h with h1 | ⟨g, hg, hc⟩
      · exact Or.inl h1
      · exact Or.inr ⟨g, List.mem_cons_of_mem fp hg, hc⟩

/-- A needle containing a character absent from the haystack never occurs
as a substring. -/
theorem containsL_eq_false (sub : List Char) (c : Char) (hc : c ∈ sub) :
    ∀ s : List Char, c ∉ s → containsL s sub = false := by
  intro s
  induction s with
  | nil =>
    intro _
    cases sub with
    | nil => cases hc
    | cons a t => rfl
  | cons a rest ih =>
    intro hs
    have hpre : sub.isPrefixOf (a :: rest) = false := by
      cases hp : sub.isPrefixOf (a :: rest)
      · rfl
      · exact absurd ((List.isPrefixOf_iff_prefix.mp hp).subset hc) hs
    unfold containsL
    rw [hpre]
    simp only [Bool.false_eq_true, if_false]
    exact ih (fun hm => hs (List.mem_cons_of_mem a hm))

/-- Every path under the counterexample directory passes the defensive
root check. -/
theorem cexPath_guard (i : Nat) :
    (cexPath i == "/r" || strStartsWith (cexPath i) ("/r" ++ "/")) = true := by
  have h : strStartsWith (cexPath i) ("/r" ++ "/") = true := by
    show List.isPrefixOf (("/r" ++ "/") : String).data (("/r/d/" ++ pad4 i) : String).data
      = true
    rw [String.data_append]
    show List.isPrefixOf ['/', 'r', '/'] (['/', 'r', '/', 'd', '/'] ++ (pad4 i).data) = true
    simp [List.isPrefixOf]
  rw [h, Bool.or_true]

/-- The space character never occurs in a counterexample path. -/
theorem space_not_in_cexPath (i : Nat) : ' ' ∉ (cexPath i).data := by
  unfold cexPath
  rw [String.data_append]
  intro h
  rcases List.mem_append.mp h with h1 | h2
  · have h5 : ("/r/d/" : String).data = ['/', 'r', '/', 'd', '/'] := rfl
    rw [h5] at h1
    simp at h1
  · have h4 : (pad4 i).data
        = [digitChar (i / 1000), digitChar (i / 100), digitChar (i / 10), digitChar i] := rfl
    rw [h4] at h2
    simp only [List.mem_cons, List.not_mem_nil, or_false] at h2
    rcases h2 with h2 | h2 | h2 | h2 <;>
      exact digitChar_ne_space _ h2.symm

/-- The first 5000 collected counterexample paths. -/
theorem cex_take_5000 :
    (cexEntries.map WalkEntry.path).take 5000 = (List.range 5000).map cexPath := by
  unfold cexEntries
  rw [List.map_map]
  have hcomp : (WalkEntry.path ∘ fun i =>
      ({ path := cexPath i, isDir := false, err := none } : WalkEntry)) = cexPath := rfl
  rw [hcomp, ← List.map_take, List.take_range]
  norm_num

/-- C3 amended: on a flat directory of 6000 files (error-free walk, every
file under the root), list_files succeeds with the render of exactly the
first 5000 paths in walk order — never the full set — and the
truncation notice appears only if the rendered size exceeds the 1 MiB
output cap: within the cap the output is the bare newline join. -/
theorem list_files_cap (root : String) (w : World) (args : Args) (fi : StatInfo)
    (dirE : WalkEntry) (files : List WalkEntry)
    (hp : argStr args "path" ≠ "")
    (hguard : (joinPath root (cleanPath (argStr args "path")) == root
        || strStartsWith (joinPath root (cleanPath (argStr args "path"))) (root ++ "/"))
        = true)
    (hstat : w.stat (joinPath root (cleanPath (argStr args "path"))) = Except.ok fi)
    (hfi : fi.isDir = true)
    (hwalk : w.walk (joinPath root (cleanPath (argStr args "path"))) = dirE :: files)
    (hdirE : dirE.isDir = true ∧ dirE.err = none)
    (hfiles : ∀ e ∈ files, e.err = none ∧ e.isDir = false ∧
      (e.path == root || strStartsWith e.path (root ++ "/")) = true)
    (hn : files.length = 6000) :
    (listFilesRun root w args).1
      = Except.ok (renderPaths ((files.map WalkEntry.path).take 5000)) ∧
    ((files.map WalkEntry.path).take 5000).length = 5000 ∧
    (files.map WalkEntry.path).take 5000 ≠ files.map WalkEntry.path ∧
    (renderWeight ((files.map WalkEntry.path).take 5000) ≤ maxOutputBytes →
      renderPaths ((files.map WalkEntry.path).take 5000)
        = joinAll ((files.map WalkEntry.path).take 5000)) := by
  have hcollect : walkCollect root (root ++ "/") (dirE :: files) []
      = Except.ok ((files.map WalkEntry.path).take 5000) := by
    unfold walkCollect
    rw [hdirE.2]
    simp only [hdirE.1, if_true]
    rw [walkCollect_files root (root ++ "/") files [] hfiles (by simp)]
    simp
  refine ⟨?_, ?_, ?_, renderPaths_no_trunc _⟩
  · simp [listFilesRun, hp, hguard, hstat, hfi, hwalk, hcollect]
  · simp [List.length_take, List.length_map, hn]
  · intro heq
    have hlen := congrArg List.length heq
    simp only [List.length_take, List.length_map, hn] at hlen
    omega

/-- C3 witness: the amended statement applied to the 6000-file fixture
directory. -/
theorem list_files_cap_witness :
    (listFilesRun "/r" worldCex [("path", JVal.str "d")]).1
      = Except.ok (renderPaths ((cexEntries.map WalkEntry.path).take 5000)) ∧
    ((cexEntries.map WalkEntry.path).take 5000).length = 5000 ∧
    (cexEntries.map WalkEntry.path).take 5000 ≠ cexEntries.map WalkEntry.path := by
  have h := list_files_cap "/r" worldCex [("path", JVal.str "d")]
    { isDir := true, size := 0 } { path := "/r/d", isDir := true, err := none } cexEntries
    (by decide) (by decide) (by decide) rfl rfl ⟨rfl, rfl⟩
    (fun e he => by
      obtain ⟨i, _, hei⟩ := List.mem_map.mp he
      rw [← hei]
      exact ⟨rfl, rfl, cexPath_guard i⟩)
    (by simp [cexEntries])
  exact ⟨h.1, h.2.1, h.2.2.1⟩

/-- C3 counterexample: the fixture is a directory containing 6000 files
with nine-byte paths; list_files answers with the plain newline join of
the first 5000 paths, a string that contains no truncation notice, so
the claimed marker is absent. -/
theorem list_files_marker_cex :
    cexEntries.length = 6000 ∧
    (listFilesRun "/r" worldCex [("path", JVal.str "d")]).1
      = Except.ok (joinAll ((List.range 5000).map cexPath)) ∧
    strContains (joinAll ((List.range 5000).map cexPath)) truncNotice = false := by
  have hweight : renderWeight ((List.range 5000).map cexPath) ≤ maxOutputBytes := by
    unfold renderWeight
    rw [List.map_map]
    have hconst : ∀ x ∈ List.range 5000,
        ((fun fp => 1 + byteLen fp) ∘ cexPath) x = 10 := by
      intro x _
      simp [Function.comp, byteLen_cexPath]
    rw [sum_map_const_of _ _ 10 hconst]
    simp [maxOutputBytes]
  have hmain : (listFilesRun "/r" worldCex [("path", JVal.str "d")]).1
      = Except.ok (renderPaths ((cexEntries.map WalkEntry.path).take 5000)) := by
    have h := list_files_cap "/r" worldCex [("path", JVal.str "d")]
      { isDir := true, size := 0 } { path := "/r/d", isDir := true, err := none } cexEntries
      (by decide) (by decide) (by decide) rfl rfl ⟨rfl, rfl⟩
      (fun e he => by
        obtain ⟨i, _, hei⟩ := List.mem_map.mp he
        rw [← hei]
        exact ⟨rfl, rfl, cexPath_guard i⟩)
      (by simp [cexEntries])
    exact h.1
  refine ⟨by simp [cexEntries], ?_, ?_⟩
  · rw [hmain, cex_take_5000, renderPaths_no_trunc _ hweight]
  · unfold strContains
    apply containsL_eq_false truncNotice.data ' ' (by decide)
    intro hmem
    rcases mem_data_joinAll _ ' ' hmem with h1 | ⟨fp, hfp, hc⟩
    · exact absurd h1 (by decide)
    · obtain ⟨i, _, hei⟩ := List.mem_map.mp hfp
      rw [← hei] at hc
      exact space_not_in_cexPath i hc

/-- Two strings are equal when their character lists are. -/
theorem stringDataEq {a b : String} (h : a.data = b.data) : a = b := by
  cases a
  cases b
  simp_all

/-- Segments produced by the slash split never contain a slash. -/
theorem splitSlash_no_slash_mem : ∀ (l : List Char) (s : List Char),
    s ∈ splitSlash l → '/' ∉ s := by
  intro l
  induction l with
  | nil =>
    intro s hs
    simp [splitSlash] at hs
    simp [hs]
  | cons c rest ih =>
    intro s hs
    simp only [splitSlash] at hs
    by_cases hc : c = '/'
    · rw [if_pos hc] at hs
      rcases List.mem_cons.mp hs with h | h
      · simp [h]
      · exact ih s h
    · rw [if_neg hc] at hs
      cases hsp : splitSlash rest with
      | nil =>
        rw [hsp] at hs
        rcases List.mem_cons.mp hs with h | h
        · subst h
          intro hm
          rcases List.mem_cons.mp hm with h1 | h1
          · exact hc h1.symm
          · simp at h1
        · simp at h
      | cons seg others =>
        rw [hsp] at hs
        rcases List.mem_cons.mp hs with h | h
        · subst h
          intro hm
          rcases List.mem_cons.mp hm with h1 | h1
          · exact hc h1.symm
          · exact ih seg (by rw [hsp]; exact List.mem_cons_self _ _) h1
        · exact ih s (by rw [hsp]; exact List.mem_cons_of_mem _ h)

/-- Splitting a slash-free run yields that run as the only segment. -/
theorem splitSlash_of_no_slash : ∀ (r : List Char), '/' ∉ r → splitSlash r = [r] := by
  intro r
  induction r with
  | nil => intro _; rfl
  | cons c r' ih =>
    intro h
    have hc : c ≠ '/' := fun hh => h (by simp [hh])
    simp only [splitSlash, if_neg hc]
    rw [ih (fun hm => h (List.mem_cons_of_mem c hm))]

/-- Splitting a slash-free segment followed by a separator peels the
segment off. -/
theorem splitSlash_append (seg : List Char) (t : List Char) (h : '/' ∉ seg) :
    splitSlash (seg ++ '/' :: t) = seg :: splitSlash t := by
  induction seg with
  | nil => simp [splitSlash]
  | cons c s' ih =>
    have hc : c ≠ '/' := fun hh => h (by simp [hh])
    have ih2 := ih (fun hm => h (List.mem_cons_of_mem c hm))
    simp only [List.cons_append, splitSlash, if_neg hc, List.append_eq]
    rw [ih2]

/-- Rejoining a nonempty segment list starts with its head. -/
theorem joinSegs_cons (s : List Char) (rs : List (List Char)) (h : rs ≠ []) :
    joinSegs (s :: rs) = s ++ '/' :: joinSegs rs := by
  cases rs with
  | nil => exact absurd rfl h
  | cons r rest => rfl

/-- Splitting a rejoined nonempty slash-free segment list followed by a
separator recovers the segments before the remainder's split. -/
theorem splitSlash_joinSegs_append :
    ∀ (rs : List (List Char)), rs ≠ [] → (∀ s ∈ rs, '/' ∉ s) →
    ∀ t, splitSlash (joinSegs rs ++ '/' :: t) = rs ++ splitSlash t := by
  intro rs
  induction rs with
  | nil => intro h; exact absurd rfl h
  | cons r rs' ih =>
    intro _ hs t
    cases rs' with
    | nil =>
      show splitSlash (r ++ '/' :: t) = [r] ++ splitSlash t
      rw [splitSlash_append r t (hs r (List.mem_cons_self r []))]
      rfl
    | cons r2 rest =>
      rw [joinSegs_cons r (r2 :: rest) (by simp)]
      have hassoc : (r ++ '/' :: joinSegs (r2 :: rest)) ++ '/' :: t
          = r ++ '/' :: (joinSegs (r2 :: rest) ++ '/' :: t) := by
        simp
      rw [hassoc, splitSlash_append r _ (hs r (List.mem_cons_self _ _)),
        ih (by simp) (fun x hx => hs x (List.mem_cons_of_mem r hx)) t]
      rfl

/-- Splitting a rejoined nonempty slash-free segment list recovers it. -/
theorem splitSlash_joinSegs :
    ∀ (rs : List (List Char)), rs ≠ [] → (∀ s ∈ rs, '/' ∉ s) →
    splitSlash (joinSegs rs) = rs := by
  intro rs
  induction rs with
  | nil => intro h; exact absurd rfl h
  | cons r rs' ih =>
    intro _ hs
    cases rs' with
    | nil => exact splitSlash_of_no_slash r (hs r (List.mem_cons_self r []))
    | cons r2 rest =>
      rw [joinSegs_cons r (r2 :: rest) (by simp),
        splitSlash_append r _ (hs r (List.mem_cons_self _ _)),
        ih (by simp) (fun x hx => hs x (List.mem_cons_of_mem r hx))]

/-- Rejoining distributes over append of nonempty segment lists. -/
theorem joinSegs_append (rs cs : List (List Char)) (h1 : rs ≠ []) (h2 : cs ≠ []) :
    joinSegs (rs ++ cs) = joinSegs rs ++ '/' :: joinSegs cs := by
  induction rs with
  | nil => exact absurd rfl h1
  | cons r rs' ih =>
    cases rs' with
    | nil =>
      show joinSegs (r :: cs) = joinSegs [r] ++ '/' :: joinSegs cs
      rw [joinSegs_cons r cs h2]
      rfl
    | cons r2 rest =>
      have hne : (r2 :: rest) ++ cs ≠ [] := by simp
      show joinSegs (r :: ((r2 :: rest) ++ cs)) = _
      rw [joinSegs_cons r _ hne, joinSegs_cons r (r2 :: rest) (by simp),
        ih (by simp)]
      simp

/-- With no dot-dot segments the stack pass just pushes everything. -/
theorem cleanSegs_no_dotdot (rooted : Bool) :
    ∀ (segs : List (List Char)), (∀ s ∈ segs, s ≠ ['.', '.']) →
    ∀ acc, cleanSegs rooted acc segs = segs.reverse ++ acc := by
  intro segs
  induction segs with
  | nil => intro _ acc; simp [cleanSegs]
  | cons s rest ih =>
    intro h acc
    have hs : s ≠ ['.', '.'] := h s (List.mem_cons_self s rest)
    simp only [cleanSegs, if_neg hs]
    rw [ih (fun x hx => h x (List.mem_cons_of_mem s hx)) (s :: acc)]
    simp

/-- On a rooted path the stack pass keeps the stack free of empty, dot and
dot-dot segments and of separators. -/
theorem cleanSegs_rooted_good :
    ∀ (segs : List (List Char)),
      (∀ s ∈ segs, s ≠ [] ∧ s ≠ ['.'] ∧ '/' ∉ s) →
    ∀ acc, (∀ s ∈ acc, GoodSeg s) →
      ∀ s ∈ cleanSegs true acc segs, GoodSeg s := by
  intro segs
  induction segs with
  | nil =>
    intro _ acc hacc
    simpa [cleanSegs] using hacc
  | cons seg rest ih =>
    intro h acc hacc
    obtain ⟨h1, h2, h3⟩ := h seg (List.mem_cons_self seg rest)
    have hrest := fun x hx => h x (List.mem_cons_of_mem seg hx)
    by_cases hd : seg = ['.', '.']
    · cases acc with
      | nil =>
        simp only [cleanSegs, if_pos hd, if_true]
        exact ih hrest [] (by simp)
      | cons top below =>
        have htop : GoodSeg top := hacc top (List.mem_cons_self top below)
        simp only [cleanSegs, if_pos hd, if_neg htop.2.2.1]
        exact ih hrest below (fun x hx => hacc x (List.mem_cons_of_mem top hx))
    · simp only [cleanSegs, if_neg hd]
      exact ih hrest (seg :: acc) (fun x hx => by
        rcases List.mem_cons.mp hx with hx1 | hx1
        · subst hx1; exact ⟨h1, h2, hd, h3⟩
        · exact hacc x hx1)

/-- Splitting a rooted list peels an empty leading segment. -/
theorem splitSlash_cons_slash (l : List Char) :
    splitSlash ('/' :: l) = [] :: splitSlash l := rfl

/-- The definitional unfolding of Clean on a rooted path. -/
theorem cleanL_cons_slash (l : List Char) :
    cleanL ('/' :: l) = '/' :: joinSegs ((cleanSegs true []
      ((splitSlash ('/' :: l)).filter (fun s => !(s == [] || s == ['.'])))).reverse) := rfl

/-- Cleaning a rooted path yields the root and a canonical segment list. -/
theorem cleanL_rooted (l : List Char) :
    ∃ cs, (∀ s ∈ cs, GoodSeg s) ∧ cleanL ('/' :: l) = '/' :: joinSegs cs := by
  refine ⟨(cleanSegs true [] ((splitSlash ('/' :: l)).filter
    (fun s => !(s == [] || s == ['.'])))).reverse, ?_, cleanL_cons_slash l⟩
  intro s hs
  rw [List.mem_reverse] at hs
  refine cleanSegs_rooted_good _ ?_ [] (by simp) s hs
  intro x hx
  have hmem := List.mem_of_mem_filter hx
  have hcond := List.of_mem_filter hx
  simp only [Bool.not_eq_true', Bool.or_eq_false_iff, beq_eq_false_iff_ne] at hcond
  exact ⟨hcond.1, hcond.2, splitSlash_no_slash_mem _ x hmem⟩

/-- Clean is the identity on a rooted path in canonical form. -/
theorem cleanL_canonical (cs : List (List Char)) (h : ∀ s ∈ cs, GoodSeg s) :
    cleanL ('/' :: joinSegs cs) = '/' :: joinSegs cs := by
  cases cs with
  | nil => rfl
  | cons c1 rest =>
    have hne : (c1 :: rest) ≠ [] := by simp
    have hns : ∀ s ∈ c1 :: rest, '/' ∉ s := fun s hs => (h s hs).2.2.2
    have hsplit : splitSlash ('/' :: joinSegs (c1 :: rest)) = [] :: (c1 :: rest) := by
      rw [splitSlash_cons_slash, splitSlash_joinSegs _ hne hns]
    have hfilter : (([] :: (c1 :: rest)).filter (fun s => !(s == [] || s == ['.'])))
        = c1 :: rest := by
      rw [List.filter_cons]
      simp only [show (!(([] : List Char) == [] || ([] : List Char) == ['.'])) = false
        from rfl, Bool.false_eq_true, if_false]
      refine List.filter_eq_self.mpr ?_
      intro a ha
      have h1 : a ≠ [] := (h a ha).1
      have h2 : a ≠ ['.'] := (h a ha).2.1
      simp [h1, h2]
    rw [cleanL_cons_slash, hsplit, hfilter,
      cleanSegs_no_dotdot true _ (fun s hs => (h s hs).2.2.1) []]
    simp

/-- Cleaning the concatenation root-slash-cleanedpath merges the two
canonical segment lists. -/
theorem cleanL_join (rs cs : List (List Char))
    (hrs : ∀ s ∈ rs, GoodSeg s) (hrne : rs ≠ [])
    (hcs : ∀ s ∈ cs, GoodSeg s) :
    cleanL (('/' :: joinSegs rs) ++ '/' :: '/' :: joinSegs cs)
      = '/' :: joinSegs (rs ++ cs) := by
  have hnsr : ∀ s ∈ rs, '/' ∉ s := fun s hs => (hrs s hs).2.2.2
  have heq : ('/' :: joinSegs rs) ++ '/' :: '/' :: joinSegs cs
      = '/' :: (joinSegs rs ++ '/' :: ('/' :: joinSegs cs)) := by simp
  have hsplit : splitSlash ('/' :: (joinSegs rs ++ '/' :: ('/' :: joinSegs cs)))
      = [] :: (rs ++ ([] :: splitSlash (joinSegs cs))) := by
    rw [splitSlash_cons_slash, splitSlash_joinSegs_append rs hrne hnsr,
      splitSlash_cons_slash]
  have hfilterGood : ∀ (l : List (List Char)), (∀ s ∈ l, GoodSeg s) →
      l.filter (fun s => !(s == [] || s == ['.'])) = l := by
    intro l hl
    refine List.filter_eq_self.mpr ?_
    intro a ha
    simp [(hl a ha).1, (hl a ha).2.1]
  have hemptyFalse : (!(([] : List Char) == [] || ([] : List Char) == ['.'])) = false := rfl
  rw [heq, cleanL_cons_slash, hsplit]
  cases hc : cs with
  | nil =>
    have hsplit2 : splitSlash (joinSegs ([] : List (List Char))) = [[]] := rfl
    rw [hsplit2]
    have hfilter : (([] :: (rs ++ [[], []])).filter (fun s => !(s == [] || s == ['.'])))
        = rs := by
      rw [List.filter_cons]
      simp only [hemptyFalse, Bool.false_eq_true, if_false, List.filter_append]
      rw [hfilterGood rs hrs]
      simp
    rw [hfilter, cleanSegs_no_dotdot true _ (fun s hs => (hrs s hs).2.2.1) []]
    simp
  | cons c1 crest =>
    have hsplit2 : splitSlash (joinSegs (c1 :: crest)) = c1 :: crest := by
      rw [splitSlash_joinSegs _ (by simp) (fun s hs => (hcs s (hc ▸ hs)).2.2.2)]
    rw [hsplit2]
    have hfilter : (([] :: (rs ++ [] :: (c1 :: crest))).filter
        (fun s => !(s == [] || s == ['.']))) = rs ++ c1 :: crest := by
      rw [List.filter_cons]
      simp only [hemptyFalse, Bool.false_eq_true, if_false, List.filter_append]
      rw [hfilterGood rs hrs, List.filter_cons]
      simp only [hemptyFalse, Bool.false_eq_true, if_false]
      rw [hfilterGood (c1 :: crest) (fun s hs => hcs s (hc ▸ hs))]
    rw [hfilter,
      cleanSegs_no_dotdot true _ (fun s hs => by
        rcases List.mem_append.mp hs with hs1 | hs1
        · exact (hrs s hs1).2.2.1
        · exact (hcs s (hc ▸ hs1)).2.2.1) []]
    simp

/-- A clean absolute root other than the filesystem root is the separator
followed by a nonempty canonical segment list. -/
theorem root_form (root : String) (h : IsCleanAbsRoot root) :
    ∃ rs, (∀ s ∈ rs, GoodSeg s) ∧ rs ≠ [] ∧ root.data = '/' :: joinSegs rs := by
  obtain ⟨hhead, hclean, hne⟩ := h
  cases hd : root.data with
  | nil => rw [hd] at hhead; cases hhead
  | cons c l =>
    have hc : c = '/' := by rw [hd] at hhead; simpa using hhead
    subst hc
    obtain ⟨cs, hgood, hcl⟩ := cleanL_rooted l
    have hdata : cleanL root.data = root.data := congrArg String.data hclean
    rw [hd, hcl] at hdata
    refine ⟨cs, hgood, ?_, hdata.symm⟩
    intro hcs0
    subst hcs0
    apply hne
    apply stringDataEq
    rw [hd, ← hdata]
    rfl

/-- C10: with the root a clean absolute directory (as os.Getwd yields) and
an absolute path argument, the resolved target Join(root, Clean(p)) is
inside the root — the confinement check passes — and differs from the
absolute location the argument names; read_file and list_files then
operate on that in-root target, their effect traces starting with its
stat. -/
theorem absolute_path_confined (root : String) (w : World) (args : Args)
    (hroot : IsCleanAbsRoot root)
    (habs : (argStr args "path").data.head? = some '/') :
    ((joinPath root (cleanPath (argStr args "path")) == root
      || strStartsWith (joinPath root (cleanPath (argStr args "path"))) (root ++ "/"))
      = true) ∧
    joinPath root (cleanPath (argStr args "path")) ≠ argStr args "path" ∧
    (readFileRun root w args).2.head?
      = some (Effect.statOf (joinPath root (cleanPath (argStr args "path")))) ∧
    (listFilesRun root w args).2.head?
      = some (Effect.statOf (joinPath root (cleanPath (argStr args "path")))) := by
  obtain ⟨rs, hrsGood, hrsne, hrd⟩ := root_form root hroot
  cases hpd : (argStr args "path").data with
  | nil => rw [hpd] at habs; cases habs
  | cons c l =>
    have hc : c = '/' := by rw [hpd] at habs; simpa using habs
    subst hc
    obtain ⟨cs, hcsGood, hclean⟩ := cleanL_rooted l
    have hpclean : (cleanPath (argStr args "path")).data = '/' :: joinSegs cs := by
      show cleanL (argStr args "path").data = _
      rw [hpd]
      exact hclean
    have hrne : root ≠ "" := by
      intro hh
      rw [hh] at hrd
      cases hrd
    have hpne : cleanPath (argStr args "path") ≠ "" := by
      intro hh
      rw [hh] at hpclean
      cases hpclean
    have hjdata : (joinPath root (cleanPath (argStr args "path"))).data
        = '/' :: joinSegs (rs ++ cs) := by
      unfold joinPath
      rw [if_neg hrne, if_neg hpne]
      show cleanL ((root ++ "/" ++ cleanPath (argStr args "path")).data) = _
      have hdata2 : (root ++ "/" ++ cleanPath (argStr args "path")).data
          = ('/' :: joinSegs rs) ++ '/' :: '/' :: joinSegs cs := by
        rw [String.data_append, String.data_append, hrd, hpclean]
        simp
      rw [hdata2]
      exact cleanL_join rs cs hrsGood hrsne hcsGood
    have hguard : (joinPath root (cleanPath (argStr args "path")) == root
        || strStartsWith (joinPath root (cleanPath (argStr args "path"))) (root ++ "/"))
        = true := by
      cases hcs0 : cs with
      | nil =>
        have hj : joinPath root (cleanPath (argStr args "path")) = root := by
          apply stringDataEq
          rw [hjdata, hrd, hcs0]
          simp
        rw [hj]
        simp
      | cons c1 crest =>
        have hpfx : strStartsWith (joinPath root (cleanPath (argStr args "path")))
            (root ++ "/") = true := by
          unfold strStartsWith
          apply List.isPrefixOf_iff_prefix.mpr
          rw [String.data_append, hjdata, hrd,
            joinSegs_append rs cs hrsne (by rw [hcs0]; simp)]
          refine ⟨joinSegs cs, ?_⟩
          show ('/' :: joinSegs rs) ++ "/".data ++ joinSegs cs
            = '/' :: (joinSegs rs ++ '/' :: joinSegs cs)
          simp
        rw [hpfx, Bool.or_true]
    have hp : argStr args "path" ≠ "" := by
      intro hh
      rw [hh] at hpd
      cases hpd
    refine ⟨hguard, ?_, ?_, ?_⟩
    · intro heq
      have hpd2 := congrArg String.data heq
      rw [hjdata, hpd] at hpd2
      cases hcs0 : cs with
      | nil =>
        subst hcs0
        have hp1 : cleanPath (argStr args "path") = "/" := by
          apply stringDataEq
          rw [hpclean]
          rfl
        have hj : joinPath root (cleanPath (argStr args "path")) = root := by
          apply stringDataEq
          rw [hjdata, hrd]
          simp
        rw [hj] at heq
        have hroot2 : cleanPath root = "/" := by
          rw [heq, hp1]
        rw [hroot.2.1] at hroot2
        exact hroot.2.2 hroot2
      | cons c1 crest =>
        have hcsne : cs ≠ [] := by rw [hcs0]; simp
        have hGoodAll : ∀ s ∈ rs ++ cs, GoodSeg s := by
          intro s hs
          rcases List.mem_append.mp hs with hs1 | hs1
          · exact hrsGood s hs1
          · exact hcsGood s hs1
        have hl : l = joinSegs (rs ++ cs) := by
          injection hpd2 with _ h2
          exact h2.symm
        have hone : cleanL ('/' :: joinSegs (rs ++ cs)) = '/' :: joinSegs cs := by
          rw [← hl]
          exact hclean
        rw [cleanL_canonical (rs ++ cs) hGoodAll] at hone
        have hjoins : joinSegs (rs ++ cs) = joinSegs cs := by
          injection hone with _ h2
        rw [joinSegs_append rs cs hrsne hcsne] at hjoins
        have hlen := congrArg List.length hjoins
        simp [List.length_append] at hlen
        omega
    · cases hstat : w.stat (joinPath root (cleanPath (argStr args "path"))) with
      | error e => simp [readFileRun, hp, hguard, hstat]
      | ok fi =>
        cases hdir : fi.isDir
        · by_cases hsz : maxOutputBytes < fi.size
          · simp [readFileRun, hp, hguard, hstat, hdir, hsz]
          · cases hr : w.readF (joinPath root (cleanPath (argStr args "path"))) <;>
              simp [readFileRun, hp, hguard, hstat, hdir, hsz, hr]
        · simp [readFileRun, hp, hguard, hstat, hdir]
    · cases hstat : w.stat (joinPath root (cleanPath (argStr args "path"))) with
      | error e => simp [listFilesRun, hp, hguard, hstat]
      | ok fi =>
        cases hdir : fi.isDir
        · simp [listFilesRun, hp, hguard, hstat, hdir]
        · cases hwc : walkCollect root (root ++ "/")
            (w.walk (joinPath root (cleanPath (argStr args "path")))) [] <;>
            simp [listFilesRun, hp, hguard, hstat, hdir, hwc]

/-- C10 witness: at root /r the absolute argument /etc/passwd resolves to
/r/etc/passwd, inside the root, and the stat targets it. -/
theorem absolute_path_confined_witness :
    ((joinPath "/r" (cleanPath (argStr [("path", JVal.str "/etc/passwd")] "path")) == "/r"
      || strStartsWith
          (joinPath "/r" (cleanPath (argStr [("path", JVal.str "/etc/passwd")] "path")))
          ("/r" ++ "/")) = true) ∧
    joinPath "/r" (cleanPath (argStr [("path", JVal.str "/etc/passwd")] "path"))
      ≠ argStr [("path", JVal.str "/etc/passwd")] "path" ∧
    (readFileRun "/r" worldEx [("path", JVal.str "/etc/passwd")]).2.head?
      = some (Effect.statOf (joinPath "/r" (cleanPath
          (argStr [("path", JVal.str "/etc/passwd")] "path")))) ∧
    (listFilesRun "/r" worldEx [("path", JVal.str "/etc/passwd")]).2.head?
      = some (Effect.statOf (joinPath "/r" (cleanPath
          (argStr [("path", JVal.str "/etc/passwd")] "path")))) :=
  absolute_path_confined "/r" worldEx [("path", JVal.str "/etc/passwd")]
    ⟨by decide, by decide, by decide⟩ (by decide)

end KUT
